import Mathlib

/-!
Verification of the punchclock time-tracking program (src/punchclock.py)
against its natural-language specification.

Shallow embedding conventions:
* A naive `datetime` is an integer count of microseconds since an epoch
  (`Int`); its calendar date is the floor-quotient by the length of a day
  in microseconds and its time-of-day is the remainder.  Python's
  floor-division / nonnegative-remainder semantics for a positive divisor
  coincide with `Int`'s `/` and `%` in Lean.
* A session (one entry of a punchclock) is the list of its timestamps,
  exactly as in the Python source: one timestamp means clocked in
  (Open), two mean a finished interval (Closed).
* The Python `dict` built by `get_date_dict` is insertion-ordered; it is
  embedded as an association list that preserves insertion order, with
  `dappend` modelling the `if key not in dct: dct[key] = [val] else:
  dct[key].append(val)` pattern and `dset` modelling plain assignment
  `dct[key] = vs` (both keep the position of an existing key, as CPython
  dicts do).
-/

namespace Punchclock

/-- Number of microseconds in a day. -/
def dayLen : Int := 86400000000

/-- `t.date()` for a datetime `t` in microseconds: floor division by the
day length (Python floor division on a positive divisor). -/
def dateOf (t : Int) : Int := t / dayLen

/-- `t.time()` as microseconds since midnight: the remainder modulo the
day length (nonnegative, as in Python). -/
def todOf (t : Int) : Int := t % dayLen

/-- `time(23, 59, 59, 999_999)` in microseconds. -/
def endOfDay : Int := dayLen - 1

/-- One stored session: the list of its timestamps (length 1 = Open,
length 2 = Closed), mirroring `list[datetime]` in the source. -/
abbrev Entry := List Int

/-- A punchclock's stored data: `list[list[datetime]]`. -/
abbrev Clock := List Entry

/-- A value of the date dict: a list of times-of-day, as built by
`get_date_dict` (`[start.time(), end.time()]` and friends). -/
abbrev Interval := List Int

/-- The insertion-ordered dict from calendar date to interval lists. -/
abbrev Dct := List (Int × List Interval)

/-- Lookup in the date dict (`dct[key]` / `key in dct`). -/
def dfind (k : Int) : Dct → Option (List Interval)
  | [] => none
  | (k', vs) :: rest => if k' = k then some vs else dfind k rest

/-- The source pattern `if key not in dct: dct[key] = [val] else:
dct[key].append(val)`: append one interval to a key's list, creating the
key at the end of the dict when absent. -/
def dappend (dct : Dct) (k : Int) (v : Interval) : Dct :=
  match dct with
  | [] => [(k, [v])]
  | (k', vs) :: rest =>
      if k' = k then (k', vs ++ [v]) :: rest else (k', vs) :: dappend rest k v

/-- Plain dict assignment `dct[key] = vs`: overwrite in place, creating
the key at the end of the dict when absent. -/
def dset (dct : Dct) (k : Int) (vs : List Interval) : Dct :=
  match dct with
  | [] => [(k, vs)]
  | (k', vs') :: rest =>
      if k' = k then (k', vs) :: rest else (k', vs') :: dset rest k vs

/-- The keys of the dict in insertion order. -/
def dkeys (d : Dct) : List Int := d.map Prod.fst

/-- `full_day` from the source: `[time(0, 0, 0), time(23, 59, 59, 999_999)]`. -/
def full_day : Interval := [0, endOfDay]

/-- The body of `get_date_dict`'s loop for one resolved `(start, end)`
pair (an Open entry has already had `end = datetime.now()` substituted):
same-date entries append `[start.time(), end.time()]`; entries spanning a
date boundary append `[start.time(), 23:59:59.999999]` to the start date,
assign `[full_day]` to each of the `(end - start).days` dates after the
start date, then append `[00:00, end.time()]` to the end date. -/
def bucketPair (dct : Dct) (s e : Int) : Dct :=
  if dateOf s = dateOf e then
    dappend dct (dateOf s) [todOf s, todOf e]
  else
    let d1 := dappend dct (dateOf s) [todOf s, endOfDay]
    let diff := (e - s) / dayLen
    let d2 := (List.range diff.toNat).foldl
      (fun d (i : Nat) => dset d (dateOf s + (i : Int) + 1) [full_day]) d1
    dappend d2 (dateOf e) [0, todOf e]

/-- One iteration of `get_date_dict`'s `for entry in reversed(clock)`
loop.  An entry with one timestamp gets `end = datetime.now()`; one with
two uses them as `(start, end)`.  The source has no branch for any other
shape (it would read stale bindings or raise `NameError`); such entries
are left unbucketed here and every theorem below assumes well-formed
entries. -/
def bucketEntry (now : Int) (dct : Dct) (entry : Entry) : Dct :=
  match entry with
  | [s] => bucketPair dct s now
  | [s, e] => bucketPair dct s e
  | _ => dct

/-- `get_date_dict`: fold the entries in reverse stored order into the
insertion-ordered date dict. -/
def get_date_dict (now : Int) (clock : Clock) : Dct :=
  clock.reverse.foldl (bucketEntry now) []

/-- The inner summation of `calculate_total`: for each value
`[start, end]` of a date, add `datetime.combine(key, end) -
datetime.combine(key, start)`, which is `end - start` on times of the
same day.  A 1-element value would make the source raise (it passes a
`datetime` where `datetime.combine` needs a `time`); that case is proved
unreachable below, and contributes nothing here. -/
def sumTimes (vals : List Interval) : Int :=
  vals.foldl
    (fun t v =>
      match v with
      | [a, b] => t + (b - a)
      | _ => t) 0

/-- The `for key, times in reversed(dct.items())` loop of
`calculate_total`, with its early `return total` on the first key
strictly before `since`. -/
def totalGo (since : Int) : List (Int × List Interval) → Int → Int
  | [], total => total
  | (key, times) :: rest, total =>
      if key < since then total
      else totalGo since rest (total + sumTimes times)

/-- `calculate_total`: walk the reversed date dict summing interval
lengths, stopping at the first date before `since`. -/
def calculate_total (now : Int) (clock : Clock) (since : Int) : Int :=
  totalGo since (get_date_dict now clock).reverse 0

/-- Following the spec's words for `totalElapsed` (the reference the
code is compared against): the sum of `end - start` over every interval
of every date on or after `sinceDate`, with no early termination. -/
def specTotalSince (since : Int) : List (Int × List Interval) → Int
  | [] => 0
  | (key, times) :: rest =>
      (if since ≤ key then sumTimes times else 0) + specTotalSince since rest

/-- `clock_in` on an existing punchclock, as the write it performs:
`some newClock` when `set_punchclock` is called with `newClock`, `none`
when nothing is written.  A last entry of length 1 only prints the
clock-out-first message; length 2 appends `[datetime.now()]` and saves;
any other length raises `ValueError` (no write), and an empty clock
raises `IndexError` at `clock[-1]` (no write).  The absent-timer branch
(interactive creation prompt) is outside this claim's scope. -/
def clock_in (now : Int) (clock : Clock) : Option Clock :=
  match clock.getLast? with
  | some last =>
      if last.length = 1 then none
      else if last.length = 2 then some (clock ++ [[now]])
      else none
  | none => none

/-- The observable outcome of `clock_out`. -/
inductive ClockOutResult where
  /-- `exists_or_exit` printed the missing-clock message and exited 1. -/
  | notFound : ClockOutResult
  /-- The Open last session was closed in place; the new stored clock
  and the reported elapsed duration `clock[-1][1] - clock[-1][0]`. -/
  | closedOut (newClock : Clock) (elapsed : Int) : ClockOutResult
  /-- The clock-in-first message was printed; nothing written. -/
  | conflict : ClockOutResult
  /-- The source raises (`IndexError` on an empty clock, `ValueError`
  on an entry with neither 1 nor 2 timestamps). -/
  | fatal : ClockOutResult
deriving DecidableEq

/-- `clock_out`: `none` for the store means the timer's file is absent
(`exists_or_exit` fires), `some clock` its persisted contents. -/
def clock_out (now : Int) (store : Option Clock) : ClockOutResult :=
  match store with
  | none => .notFound
  | some clock =>
      match clock.getLast? with
      | some [s] => .closedOut (clock.dropLast ++ [[s, now]]) (now - s)
      | some [_, _] => .conflict
      | _ => .fatal

/-- A file or timer name, as its list of characters. -/
abbrev FName := List Char

/-- `PUNCHCLOCK_PREFIX = 'pc_'`. -/
def pcPre : FName := ['p', 'c', '_']

/-- The storage directory: the listing of `(filename, contents)` pairs. -/
abbrev Dir := List (FName × Clock)

/-- Reading one file of the directory by exact name. -/
def readFile : Dir → FName → Option Clock
  | [], _ => none
  | (f, c) :: rest, k => if f = k then some c else readFile rest k

/-- Lexicographic order on names, as Python's `sorted` compares strings
(by code point). -/
def lexLe : FName → FName → Bool
  | [], _ => true
  | _ :: _, [] => false
  | a :: as, b :: bs => if a = b then lexLe as bs else decide (a < b)

/-- Insert one name into an already sorted list. -/
def insortOne (x : FName) : List FName → List FName
  | [] => [x]
  | y :: ys => if lexLe x y then x :: y :: ys else y :: insortOne x ys

/-- `sorted` on names (insertion sort; only the ordering matters). -/
def sortNames : List FName → List FName
  | [] => []
  | x :: xs => insortOne x (sortNames xs)

/-- `get_all_punchclocks`: the sorted names obtained by stripping the
`pc_` path head from every directory entry that starts with it. -/
def get_all_punchclocks (dir : Dir) : List FName :=
  sortNames (((dir.map Prod.fst).filter
    (fun f => pcPre.isPrefixOf f)).map (fun f => f.drop 3))

/-- `get_punchclock` for an existing name: read file `pc_<name>`. -/
def get_punchclock (dir : Dir) (name : FName) : Option Clock :=
  readFile dir (pcPre ++ name)

/-- `get_running`: keep the names whose clock's last entry has length 1.
For names produced by `get_all_punchclocks` the file always exists; an
empty clock would raise `IndexError` in the source, so the theorems
assume every stored clock is nonempty. -/
def get_running (dir : Dir) : List FName :=
  (get_all_punchclocks dir).filter
    (fun n => ((get_punchclock dir n).getD []).getLast?.map List.length == some 1)

/-- Outcome of the `total` command's dispatch arm in `main`. -/
inductive TotalCmd where
  /-- `parse_date` raised `ValueError`; `eprint(e)` wrote the message to
  stderr, `main` fell out of the `match`, and the process exited with
  the recorded code. -/
  | parseError (msg : FName) (exitCode : Nat) : TotalCmd
  /-- The total was computed and printed; exit code 0. -/
  | done (total : Int) : TotalCmd
deriving DecidableEq

/-- The `['total', name, since]` arm of `main`.  `parse` stands for the
external `parse_date` (from `command_line_tools`, not in this
repository), modelled from the spec as a fallible textual date parser.
On failure the source only calls `eprint(e)`: no `exit(1)` follows, so
the process finishes normally with exit code 0. -/
def run_total (parse : FName → Except FName Int) (now : Int) (clock : Clock)
    (sinceStr : FName) : TotalCmd :=
  match parse sinceStr with
  | .error m => .parseError m 0
  | .ok since => .done (calculate_total now clock since)

/-- Outcome of the `plot-dates` command's dispatch arm in `main`. -/
inductive PlotCmd where
  /-- `parse_date` raised on one of the two date arguments; message on
  stderr, then normal termination with the recorded exit code. -/
  | parseError (msg : FName) (exitCode : Nat) : PlotCmd
  /-- Both dates parsed; `plot_dates` (external rendering) was invoked
  with these bounds. -/
  | plotted (startD endD : Int) : PlotCmd
deriving DecidableEq

/-- The `['plot-dates', name, start, end]` arm of `main`: parse the
start date, then the end date, inside one `try`; the first failure
aborts the arm with only an `eprint`. -/
def run_plot_dates (parse : FName → Except FName Int)
    (startStr endStr : FName) : PlotCmd :=
  match parse startStr with
  | .error m => .parseError m 0
  | .ok sd =>
      match parse endStr with
      | .error m => .parseError m 0
      | .ok ed => .plotted sd ed

/-- Modelled from the spec: the persisted format is a pickle snapshot
(the `pickle` module is external to this repository), specified only as
an opaque encoding of the session sequence that must round-trip with
microsecond-precision timestamps.  Timestamps are already integer
microsecond counts here; each session is emitted as its length followed
by its timestamps. -/
def encodeSessions : Clock → List Int
  | [] => []
  | s :: rest => (s.length : Int) :: (s ++ encodeSessions rest)

/-- Modelled from the spec: the inverse of `encodeSessions` for
well-formed session sequences (every session Open or Closed). -/
def decodeSessions : List Int → Option Clock
  | [] => some []
  | 1 :: s :: rest => (decodeSessions rest).map (fun c => [s] :: c)
  | 2 :: s :: e :: rest => (decodeSessions rest).map (fun c => [s, e] :: c)
  | _ => none

theorem dfind_dset (d : Dct) (k k' : Int) (vs : List Interval) :
    dfind k' (dset d k vs) = if k' = k then some vs else dfind k' d := by
  induction d with
  | nil =>
      simp only [dset, dfind]
      split_ifs <;> first | rfl | omega
  | cons p rest ih =>
      obtain ⟨k2, vs2⟩ := p
      simp only [dset]
      split_ifs with h <;> simp only [dfind, ih] <;>
        split_ifs <;> first | rfl | omega

theorem dfind_dappend (d : Dct) (k k' : Int) (v : Interval) :
    dfind k' (dappend d k v) =
      if k' = k then some ((dfind k d).getD [] ++ [v]) else dfind k' d := by
  induction d with
  | nil =>
      simp only [dappend, dfind]
      split_ifs <;> simp_all
  | cons p rest ih =>
      obtain ⟨k2, vs2⟩ := p
      simp only [dappend]
      split_ifs with h <;> simp only [dfind, ih] <;>
        split_ifs <;> simp_all

theorem dfind_fold_dset (n : Nat) (d : Dct) (base k : Int) (w : List Interval) :
    dfind k ((List.range n).foldl
        (fun d2 (i : Nat) => dset d2 (base + (i : Int) + 1) w) d) =
      if base + 1 ≤ k ∧ k ≤ base + (n : Int) then some w else dfind k d := by
  induction n with
  | zero =>
      rw [if_neg]
      · simp
      · push_cast
        omega
  | succ n ih =>
      rw [List.range_succ, List.foldl_append, List.foldl_cons, List.foldl_nil,
        dfind_dset, ih]
      by_cases h : k = base + (n : Int) + 1
      · rw [if_pos h, if_pos]
        push_cast
        omega
      · rw [if_neg h]
        by_cases h2 : base + 1 ≤ k ∧ k ≤ base + (n : Int)
        · rw [if_pos h2, if_pos]
          push_cast
          omega
        · rw [if_neg h2, if_neg]
          push_cast at h2 ⊢
          omega

theorem diff_days (s e : Int) :
    dateOf s + (e - s) / dayLen =
      if todOf s ≤ todOf e then dateOf e else dateOf e - 1 := by
  unfold dateOf todOf dayLen
  split <;> omega

/-- C2 (amended): for every session spanning different calendar dates,
processed against any dict `dct` built so far in the same pass, the
full-day interval is assigned (overwriting, not appending) to exactly
the dates `startDate + 1 .. startDate + (end - start).days`.  The first
day never receives it, but the LAST day does receive it exactly when
`startDate < endDate` and `start.timeOfDay ≤ end.timeOfDay` (in that
case its bucket is the full-day interval followed by the appended
partial `(00:00, end.timeOfDay)`); only when `end.timeOfDay <
start.timeOfDay` are the overwritten days exactly the strictly
intervening ones. -/
theorem bucketize_full_day_overwrite (dct : Dct) (s e d : Int)
    (hne : dateOf s ≠ dateOf e) :
    dfind d (bucketPair dct s e) =
      if d = dateOf s then some ((dfind d dct).getD [] ++ [[todOf s, endOfDay]])
      else if d = dateOf e then
        some ((if dateOf s < dateOf e ∧ todOf s ≤ todOf e then [full_day]
               else (dfind d dct).getD []) ++ [[0, todOf e]])
      else if dateOf s + 1 ≤ d ∧ d ≤ dateOf s + (e - s) / dayLen then
        some [full_day]
      else dfind d dct := by
  have hd := diff_days s e
  unfold bucketPair
  rw [if_neg hne]
  simp only [dfind_dappend, dfind_fold_dset]
  generalize hq : (e - s) / dayLen = q at hd ⊢
  generalize h1 : dateOf s = ds at hd hne ⊢
  generalize h2 : dateOf e = de at hd hne ⊢
  generalize h3 : todOf s = ts at hd ⊢
  generalize h4 : todOf e = te at hd ⊢
  rcases le_or_lt ts te with hc | hc
  · rw [if_pos hc] at hd
    split_ifs <;> first | rfl | (exfalso; omega) | simp_all
  · rw [if_neg (not_le.mpr hc)] at hd
    split_ifs <;> first | rfl | (exfalso; omega) | simp_all

theorem dkeys_dset (d : Dct) (k : Int) (vs : List Interval) :
    dkeys (dset d k vs) = if k ∈ dkeys d then dkeys d else dkeys d ++ [k] := by
  induction d with
  | nil => simp [dset, dkeys]
  | cons p rest ih =>
      obtain ⟨k2, vs2⟩ := p
      simp only [dset, dkeys, List.map_cons]
      by_cases h : k2 = k
      · rw [if_pos h, if_pos (by simp [h]), List.map_cons]
      · rw [if_neg h, List.map_cons]
        simp only [dkeys] at ih
        rw [ih]
        by_cases h2 : k ∈ List.map Prod.fst rest
        · rw [if_pos h2, if_pos (List.mem_cons_of_mem _ h2)]
        · rw [if_neg h2, if_neg (by
            simp only [List.mem_cons]
            push_neg
            exact ⟨fun hk => h hk.symm, h2⟩), List.cons_append]

theorem dkeys_dappend (d : Dct) (k : Int) (v : Interval) :
    dkeys (dappend d k v) = if k ∈ dkeys d then dkeys d else dkeys d ++ [k] := by
  induction d with
  | nil => simp [dappend, dkeys]
  | cons p rest ih =>
      obtain ⟨k2, vs2⟩ := p
      simp only [dappend, dkeys, List.map_cons]
      by_cases h : k2 = k
      · rw [if_pos h, if_pos (by simp [h]), List.map_cons]
      · rw [if_neg h, List.map_cons]
        simp only [dkeys] at ih
        rw [ih]
        by_cases h2 : k ∈ List.map Prod.fst rest
        · rw [if_pos h2, if_pos (List.mem_cons_of_mem _ h2)]
        · rw [if_neg h2, if_neg (by
            simp only [List.mem_cons]
            push_neg
            exact ⟨fun hk => h hk.symm, h2⟩), List.cons_append]

theorem dkeys_fold_dset (n : Nat) (d : Dct) (base : Int) (w : List Interval)
    (hb : ∀ x ∈ dkeys d, x ≤ base) :
    dkeys ((List.range n).foldl
        (fun d2 (i : Nat) => dset d2 (base + (i : Int) + 1) w) d) =
      dkeys d ++ (List.range n).map (fun (i : Nat) => base + (i : Int) + 1) := by
  induction n with
  | zero => simp
  | succ n ih =>
      rw [List.range_succ, List.foldl_append, List.foldl_cons, List.foldl_nil,
        dkeys_dset, ih, if_neg, List.map_append, List.append_assoc]
      · simp
      · intro hmem
        rw [List.mem_append] at hmem
        rcases hmem with hmem | hmem
        · have := hb _ hmem
          omega
        · rw [List.mem_map] at hmem
          obtain ⟨i, hi, hieq⟩ := hmem
          rw [List.mem_range] at hi
          omega

theorem keys_bucketPair_sorted (s e : Int) (hse : s ≤ e) :
    (dkeys (bucketPair [] s e)).Pairwise (· < ·) := by
  have hmono : dateOf s ≤ dateOf e := by
    unfold dateOf dayLen
    omega
  by_cases h : dateOf s = dateOf e
  · unfold bucketPair
    rw [if_pos h]
    simp [dappend, dkeys]
  · have hlt : dateOf s < dateOf e := lt_of_le_of_ne hmono h
    have hd := diff_days s e
    have hq : (((e - s) / dayLen).toNat : Int) ≤ dateOf e - dateOf s := by
      rcases le_or_lt (todOf s) (todOf e) with hc | hc
      · rw [if_pos hc] at hd
        omega
      · rw [if_neg (not_le.mpr hc)] at hd
        omega
    unfold bucketPair
    rw [if_neg h]
    simp only
    rw [dkeys_dappend, dkeys_fold_dset]
    · have hkeys : dkeys (dappend [] (dateOf s) [todOf s, endOfDay]) = [dateOf s] := by
        simp [dappend, dkeys]
      rw [hkeys]
      have hsorted : ([dateOf s] ++ (List.range ((e - s) / dayLen).toNat).map
          (fun (i : Nat) => dateOf s + (i : Int) + 1)).Pairwise (· < ·) := by
        rw [List.singleton_append, List.pairwise_cons]
        constructor
        · intro x hx
          rw [List.mem_map] at hx
          obtain ⟨i, _, hieq⟩ := hx
          omega
        · rw [List.pairwise_map]
          exact (List.pairwise_lt_range _).imp (by
            intro a b hab
            omega)
      have hbound : ∀ x ∈ [dateOf s] ++ (List.range ((e - s) / dayLen).toNat).map
          (fun (i : Nat) => dateOf s + (i : Int) + 1), x ≤ dateOf e := by
        intro x hx
        rw [List.mem_append] at hx
        rcases hx with hx | hx
        · simp at hx
          omega
        · rw [List.mem_map] at hx
          obtain ⟨i, hi, hieq⟩ := hx
          rw [List.mem_range] at hi
          omega
      split_ifs with hmem
      · exact hsorted
      · rw [List.pairwise_append]
        refine ⟨hsorted, by simp, ?_⟩
        intro x hx y hy
        simp only [List.mem_singleton] at hy
        subst hy
        exact lt_of_le_of_ne (hbound x hx) (fun hxe => hmem (hxe ▸ hx))
    · intro x hx
      simp [dappend, dkeys] at hx
      omega

theorem specTotalSince_zero (since : Int) (items : List (Int × List Interval))
    (h : ∀ p ∈ items, p.1 < since) : specTotalSince since items = 0 := by
  induction items with
  | nil => rfl
  | cons p rest ih =>
      rw [specTotalSince, if_neg (by have := h p (by simp); omega),
        ih (fun q hq => h q (by simp [hq]))]
      omega

theorem totalGo_eq_spec (since : Int) (items : List (Int × List Interval))
    (acc : Int) (hs : items.Pairwise (fun a b => b.1 ≤ a.1)) :
    totalGo since items acc = acc + specTotalSince since items := by
  induction items generalizing acc with
  | nil => simp [totalGo, specTotalSince]
  | cons p rest ih =>
      obtain ⟨key, times⟩ := p
      rw [List.pairwise_cons] at hs
      obtain ⟨hall, hrest⟩ := hs
      rw [totalGo, specTotalSince]
      by_cases h : key < since
      · rw [if_pos h, if_neg (by omega), specTotalSince_zero since rest
          (fun q hq => by have := hall q hq; simp at this ⊢; omega)]
        omega
      · rw [if_neg h, if_pos (by omega), ih _ hrest]
        omega

/-- 2024-01-01T10:00 (day 19723 since 1970-01-01). -/
def s0 : Int := 19723 * dayLen + 36000000000

/-- 2024-01-03T14:00 (day 19725 since 1970-01-01). -/
def e0 : Int := 19725 * dayLen + 50400000000

/-- `get_date_dict` on a single Closed session is one `bucketPair` pass
over the empty dict. -/
theorem get_date_dict_single (now s e : Int) :
    get_date_dict now [[s, e]] = bucketPair [] s e := rfl

/-- C1 counterexample: on the session 2024-01-01T10:00 .. 2024-01-03T14:00
the last date 2024-01-03 does NOT map to exactly `[(00:00, 14:00)]`: the
intervening-day loop runs over `(end - start).days = 2` days and so also
overwrites 2024-01-03 with the full-day interval before the partial
interval is appended. -/
theorem bucketize_example_last_day_cex :
    dfind 19725 (get_date_dict e0 [[s0, e0]]) ≠ some [[0, 50400000000]] := by
  decide

/-- C1 (amended): `bucketize` on the session (2024-01-01T10:00,
2024-01-03T14:00) yields exactly three dates, with 2024-01-01 mapping to
`[(10:00, 23:59:59.999999)]`, 2024-01-02 to `[(00:00, 23:59:59.999999)]`,
and 2024-01-03 to `[(00:00, 23:59:59.999999), (00:00, 14:00)]` — the
last day carries the full-day overwrite followed by the partial
interval. -/
theorem bucketize_example_buckets :
    get_date_dict e0 [[s0, e0]] =
      [(19723, [[36000000000, 86399999999]]),
       (19724, [[0, 86399999999]]),
       (19725, [[0, 86399999999], [0, 50400000000]])] := by
  decide

/-- C2 counterexample: in the same example the LAST day does receive the
full-day overwrite — its bucket is `[full_day, (00:00, 14:00)]`, not
only the partial interval, contradicting "the first and last days never
receive the full-day overwrite". -/
theorem full_day_overwrite_last_day_cex :
    dfind 19725 (get_date_dict e0 [[s0, e0]]) =
      some [full_day, [0, 50400000000]] := by
  decide

/-- C2 witness instance: an intervening day of the example receives
exactly the full-day interval. -/
theorem bucketize_full_day_overwrite_w :
    dateOf s0 ≠ dateOf e0 ∧
      dfind 19724 (bucketPair [] s0 e0) = some [full_day] := by
  have h : dateOf s0 ≠ dateOf e0 := by decide
  refine ⟨h, ?_⟩
  rw [bucketize_full_day_overwrite [] s0 e0 19724 h]
  decide

/-- C3 counterexample: with `sinceDate = 2024-01-02` the example's total
is not 38h (`136800000000` µs). -/
theorem total_since_example_cex :
    calculate_total e0 [[s0, e0]] 19724 ≠ 136800000000 := by
  decide

/-- C3 (amended): the total since 2024-01-02 is
(23:59:59.999999) + ((23:59:59.999999) + 14h) = 61:59:59.999998
(`223199999998` µs): the 2024-01-02 portion is one microsecond short of
24h, and 2024-01-03 contributes both its full-day overwrite interval and
the partial (00:00, 14:00) interval.  The 2024-01-01 portion is never
included. -/
theorem total_since_example_value :
    calculate_total e0 [[s0, e0]] 19724 = 223199999998 := by
  decide

/-- A clock with two single-day sessions on 2024-01-01 and 2024-01-03
(each 10:00 .. 12:00). -/
def twoDayClock : Clock :=
  [[19723 * dayLen + 36000000000, 19723 * dayLen + 43200000000],
   [19725 * dayLen + 36000000000, 19725 * dayLen + 43200000000]]

/-- C4 counterexample: for a clock with sessions on 2024-01-01 and
2024-01-03, the order in which `calculate_total` visits the dates is
`[2024-01-01, 2024-01-03]` — increasing, not non-increasing — and with
`sinceDate = 2024-01-03` the early return fires on the very first
(oldest) date, producing 0 instead of the 2h sum over dates on or after
`sinceDate`. -/
theorem total_order_cex :
    (get_date_dict e0 twoDayClock).reverse.map Prod.fst = [19723, 19725] ∧
      calculate_total e0 twoDayClock 19725 = 0 ∧
      specTotalSince 19725 ((get_date_dict e0 twoDayClock).reverse) =
        7200000000 := by
  refine ⟨by decide, by decide, by decide⟩

/-- C4 (amended): for a session sequence consisting of one Closed
session with `start ≤ end`, the dates are visited in non-increasing
order, and therefore `calculate_total` equals the sum of `end - start`
over all intervals of every date on or after `sinceDate`. -/
theorem total_single_session_spec (s e now since : Int) (hse : s ≤ e) :
    ((get_date_dict now [[s, e]]).reverse.Pairwise fun a b => b.1 ≤ a.1) ∧
      calculate_total now [[s, e]] since =
        specTotalSince since (get_date_dict now [[s, e]]).reverse := by
  have hp : (get_date_dict now [[s, e]]).reverse.Pairwise
      fun a b => b.1 ≤ a.1 := by
    rw [get_date_dict_single, List.pairwise_reverse]
    have hk := keys_bucketPair_sorted s e hse
    unfold dkeys at hk
    rw [List.pairwise_map] at hk
    exact hk.imp le_of_lt
  refine ⟨hp, ?_⟩
  unfold calculate_total
  rw [totalGo_eq_spec since _ 0 hp]
  omega

/-- C4 amended witness: the single-session example, since 2024-01-02. -/
theorem total_single_session_spec_w :
    s0 ≤ e0 ∧
      (((get_date_dict e0 [[s0, e0]]).reverse.Pairwise fun a b => b.1 ≤ a.1) ∧
        calculate_total e0 [[s0, e0]] 19724 =
          specTotalSince 19724 (get_date_dict e0 [[s0, e0]]).reverse) :=
  ⟨by decide, total_single_session_spec s0 e0 e0 19724 (by decide)⟩

/-- C5: `clockIn` on an existing timer whose last session is Open (the
last entry has exactly one timestamp) performs no write at all: the
branch only prints the conflict message, so the stored session sequence
is unchanged. -/
theorem clock_in_open_no_write (now : Int) (clock : Clock) (last : Entry)
    (hl : clock.getLast? = some last) (hopen : last.length = 1) :
    clock_in now clock = none ∧ (clock_in now clock).getD clock = clock := by
  simp [clock_in, hl, hopen]

/-- C5 witness: a clock with a Closed then an Open session. -/
theorem clock_in_open_no_write_w :
    ([[1, 2], [5]] : Clock).getLast? = some [5] ∧
      (clock_in 9 [[1, 2], [5]] = none ∧
        (clock_in 9 [[1, 2], [5]]).getD [[1, 2], [5]] = [[1, 2], [5]]) :=
  ⟨by decide, clock_in_open_no_write 9 [[1, 2], [5]] [5] (by decide) (by decide)⟩

/-- C6: `clockOut` on an absent timer reports not-found (exit 1); on an
existing timer with an Open last session it closes that session in place
by attaching `now` as its end, keeping every earlier session, and
reports `now - start` as elapsed; with a Closed last session it reports
the conflict and changes nothing. -/
theorem clock_out_cases (now : Int) (clock : Clock) :
    clock_out now none = ClockOutResult.notFound ∧
      (∀ s, clock.getLast? = some [s] →
        clock_out now (some clock) =
          ClockOutResult.closedOut (clock.dropLast ++ [[s, now]]) (now - s)) ∧
      (∀ a b, clock.getLast? = some [a, b] →
        clock_out now (some clock) = ClockOutResult.conflict) := by
  refine ⟨rfl, ?_, ?_⟩
  · intro s hs
    simp [clock_out, hs]
  · intro a b hab
    simp [clock_out, hab]

/-- C6 witness: all three cases at concrete inputs. -/
theorem clock_out_cases_w :
    clock_out 7 none = ClockOutResult.notFound ∧
      clock_out 7 (some [[1, 2], [5]]) =
        ClockOutResult.closedOut [[1, 2], [5, 7]] 2 ∧
      clock_out 7 (some [[1, 2]]) = ClockOutResult.conflict := by
  refine ⟨(clock_out_cases 7 []).1, ?_, (clock_out_cases 7 [[1, 2]]).2.2 1 2 (by decide)⟩
  have h := (clock_out_cases 7 [[1, 2], [5]]).2.1 5 (by decide)
  have e : (([[1, 2], [5]] : Clock).dropLast ++ [[5, 7]] : Clock) = [[1, 2], [5, 7]] := by
    decide
  have e2 : (7 : Int) - 5 = 2 := by decide
  rw [e, e2] at h
  exact h

/-- C7 counterexample: a malformed date argument to the `total` command
produces the error message on stderr but the process exits with code 0,
not 1: the `except ValueError` handler only calls `eprint` and `main`
then returns normally. -/
theorem date_parse_error_cex :
    run_total (fun _ => Except.error ['b', 'a', 'd']) e0 [[s0, e0]] ['x'] =
      TotalCmd.parseError ['b', 'a', 'd'] 0 ∧ (0 : Nat) ≠ 1 :=
  ⟨rfl, by decide⟩

/-- C7 (amended): for every invocation of `plot-dates` or `total` with a
malformed date argument, the error message is written to the error
stream and no partial action is performed, but the process exits with
code 0 (not 1). -/
theorem date_parse_error_exit0 (parse : FName → Except FName Int)
    (now : Int) (clock : Clock) :
    (∀ s m, parse s = Except.error m →
        run_total parse now clock s = TotalCmd.parseError m 0) ∧
      (∀ s m eStr, parse s = Except.error m →
        run_plot_dates parse s eStr = PlotCmd.parseError m 0) ∧
      (∀ s d eStr m, parse s = Except.ok d → parse eStr = Except.error m →
        run_plot_dates parse s eStr = PlotCmd.parseError m 0) := by
  refine ⟨fun s m h => ?_, fun s m eStr h => ?_, fun s d eStr m h1 h2 => ?_⟩
  · simp [run_total, h]
  · simp [run_plot_dates, h]
  · simp [run_plot_dates, h1, h2]

/-- A concrete fallible date parser for the C7 witness. -/
def parse0 : FName → Except FName Int :=
  fun s => if s = ['g'] then Except.error ['E'] else Except.ok 0

/-- C7 amended witness: both commands, both argument positions. -/
theorem date_parse_error_exit0_w :
    run_total parse0 0 [] ['g'] = TotalCmd.parseError ['E'] 0 ∧
      run_plot_dates parse0 ['g'] ['h'] = PlotCmd.parseError ['E'] 0 ∧
      run_plot_dates parse0 ['h'] ['g'] = PlotCmd.parseError ['E'] 0 :=
  ⟨(date_parse_error_exit0 parse0 0 []).1 ['g'] ['E'] rfl,
   (date_parse_error_exit0 parse0 0 []).2.1 ['g'] ['E'] ['h'] rfl,
   (date_parse_error_exit0 parse0 0 []).2.2 ['h'] 0 ['g'] ['E'] rfl rfl⟩

theorem mem_insortOne (x y : FName) (l : List FName) :
    x ∈ insortOne y l ↔ x = y ∨ x ∈ l := by
  induction l with
  | nil => simp [insortOne]
  | cons z zs ih =>
      simp only [insortOne]
      split_ifs with h
      · simp
      · rw [List.mem_cons, ih, List.mem_cons]
        tauto

theorem mem_sortNames (x : FName) (l : List FName) :
    x ∈ sortNames l ↔ x ∈ l := by
  induction l with
  | nil => simp [sortNames]
  | cons y ys ih =>
      rw [sortNames, mem_insortOne, ih, List.mem_cons]

theorem readFile_eq_some_iff (dir : Dir) (k : FName) :
    (∃ c, readFile dir k = some c) ↔ k ∈ dir.map Prod.fst := by
  induction dir with
  | nil => simp [readFile]
  | cons p rest ih =>
      obtain ⟨f, c⟩ := p
      simp only [readFile, List.map_cons, List.mem_cons]
      split_ifs with h
      · simp [h]
      · rw [ih]
        have : ¬k = f := fun hk => h hk.symm
        simp [this]

theorem mem_get_all (dir : Dir) (name : FName) :
    name ∈ get_all_punchclocks dir ↔ pcPre ++ name ∈ dir.map Prod.fst := by
  unfold get_all_punchclocks
  rw [mem_sortNames, List.mem_map]
  constructor
  · rintro ⟨f, hf, rfl⟩
    rw [List.mem_filter] at hf
    obtain ⟨hf1, hf2⟩ := hf
    rw [List.isPrefixOf_iff_prefix] at hf2
    obtain ⟨t, rfl⟩ := hf2
    rw [List.drop_left' (by rfl)]
    exact hf1
  · intro h
    refine ⟨pcPre ++ name, List.mem_filter.mpr ⟨h, ?_⟩, ?_⟩
    · rw [List.isPrefixOf_iff_prefix]
      exact ⟨name, rfl⟩
    · rw [List.drop_left' (by rfl)]

/-- C8: for every directory of stored timers (each with a nonempty
session list, as the source indexes `clock[-1]`), `listRunning` contains
a name exactly when that timer's file exists and its persisted last
session is Open. -/
theorem get_running_exactly_open (dir : Dir)
    (hne : ∀ p ∈ dir, p.2 ≠ ([] : Clock)) (name : FName) :
    name ∈ get_running dir ↔
      ∃ c, get_punchclock dir name = some c ∧
        ∃ last, c.getLast? = some last ∧ last.length = 1 := by
  unfold get_running
  rw [List.mem_filter, mem_get_all]
  unfold get_punchclock
  constructor
  · rintro ⟨hmem, hpred⟩
    obtain ⟨c, hc⟩ := (readFile_eq_some_iff dir (pcPre ++ name)).mpr hmem
    refine ⟨c, hc, ?_⟩
    rw [hc] at hpred
    simp only [Option.getD_some, beq_iff_eq, decide_eq_true_eq] at hpred
    rw [Option.map_eq_some'] at hpred
    obtain ⟨last, hl, hlen⟩ := hpred
    exact ⟨last, hl, hlen⟩
  · rintro ⟨c, hc, last, hl, hlen⟩
    refine ⟨(readFile_eq_some_iff dir (pcPre ++ name)).mp ⟨c, hc⟩, ?_⟩
    rw [hc]
    simp [hl, hlen]

/-- C8 witness: two prefixed timers (one running, one not) plus an
unrelated file. -/
theorem get_running_exactly_open_w :
    (∀ p ∈ ([(pcPre ++ ['a'], [[1, 2], [5]]), (pcPre ++ ['b'], [[1, 2]]),
        (['x'], [[3]])] : Dir), p.2 ≠ ([] : Clock)) ∧
      (['a'] ∈ get_running [(pcPre ++ ['a'], [[1, 2], [5]]),
          (pcPre ++ ['b'], [[1, 2]]), (['x'], [[3]])] ↔
        ∃ c, get_punchclock [(pcPre ++ ['a'], [[1, 2], [5]]),
            (pcPre ++ ['b'], [[1, 2]]), (['x'], [[3]])] ['a'] = some c ∧
          ∃ last, c.getLast? = some last ∧ last.length = 1) :=
  ⟨by decide,
   get_running_exactly_open
     [(pcPre ++ ['a'], [[1, 2], [5]]), (pcPre ++ ['b'], [[1, 2]]),
      (['x'], [[3]])] (by decide) ['a']⟩

/-- C9: decoding the encoded persisted form of any session sequence in
which every session is Open or Closed reproduces the exact sequence,
timestamps (integer microsecond counts) included. -/
theorem decode_encode_roundtrip (c : Clock)
    (hwf : ∀ s ∈ c, s.length = 1 ∨ s.length = 2) :
    decodeSessions (encodeSessions c) = some c := by
  induction c with
  | nil => rfl
  | cons s rest ih =>
      have hrest := ih (fun q hq => hwf q (List.mem_cons_of_mem _ hq))
      rcases hwf s (List.mem_cons_self _ _) with hs | hs
      · obtain ⟨a, rfl⟩ := List.length_eq_one.mp hs
        simp [encodeSessions, decodeSessions, hrest]
      · obtain ⟨a, b, rfl⟩ := List.length_eq_two.mp hs
        simp [encodeSessions, decodeSessions, hrest]

/-- C9 witness: a mixed Closed-then-Open sequence. -/
theorem decode_encode_roundtrip_w :
    (∀ s ∈ ([[5, 6], [7]] : Clock), s.length = 1 ∨ s.length = 2) ∧
      decodeSessions (encodeSessions [[5, 6], [7]]) = some [[5, 6], [7]] :=
  ⟨by decide, decode_encode_roundtrip [[5, 6], [7]] (by decide)⟩

/-- Every interval list stored in the dict has only length-2 values. -/
def dctWF (d : Dct) : Prop := ∀ p ∈ d, ∀ v ∈ p.2, v.length = 2

theorem dctWF_dappend (d : Dct) (k : Int) (v : Interval)
    (h : dctWF d) (hv : v.length = 2) : dctWF (dappend d k v) := by
  induction d with
  | nil =>
      intro p hp
      simp only [dappend, List.mem_singleton] at hp
      subst hp
      intro w hw
      simp only [List.mem_singleton] at hw
      subst hw
      exact hv
  | cons q rest ih =>
      obtain ⟨k2, vs2⟩ := q
      simp only [dappend]
      split_ifs with he
      · intro p hp
        rcases List.mem_cons.mp hp with hp | hp
        · subst hp
          intro w hw
          rcases List.mem_append.mp hw with hw | hw
          · exact h (k2, vs2) (List.mem_cons_self _ _) w hw
          · simp only [List.mem_singleton] at hw
            subst hw
            exact hv
        · exact h p (List.mem_cons_of_mem _ hp)
      · intro p hp
        rcases List.mem_cons.mp hp with hp | hp
        · subst hp
          exact h (k2, vs2) (List.mem_cons_self _ _)
        · exact ih (fun q hq => h q (List.mem_cons_of_mem _ hq)) p hp

theorem dctWF_dset (d : Dct) (k : Int) (vs : List Interval)
    (h : dctWF d) (hvs : ∀ w ∈ vs, w.length = 2) : dctWF (dset d k vs) := by
  induction d with
  | nil =>
      intro p hp
      simp only [dset, List.mem_singleton] at hp
      subst hp
      exact hvs
  | cons q rest ih =>
      obtain ⟨k2, vs2⟩ := q
      simp only [dset]
      split_ifs with he
      · intro p hp
        rcases List.mem_cons.mp hp with hp | hp
        · subst hp
          exact hvs
        · exact h p (List.mem_cons_of_mem _ hp)
      · intro p hp
        rcases List.mem_cons.mp hp with hp | hp
        · subst hp
          exact h (k2, vs2) (List.mem_cons_self _ _)
        · exact ih (fun q hq => h q (List.mem_cons_of_mem _ hq)) p hp

theorem dctWF_fold_dset (n : Nat) (d : Dct) (base : Int) (h : dctWF d) :
    dctWF ((List.range n).foldl
      (fun d2 (i : Nat) => dset d2 (base + (i : Int) + 1) [full_day]) d) := by
  induction n with
  | zero => simpa using h
  | succ n ih =>
      rw [List.range_succ, List.foldl_append, List.foldl_cons, List.foldl_nil]
      refine dctWF_dset _ _ _ ih ?_
      intro w hw
      simp only [List.mem_singleton] at hw
      subst hw
      rfl

theorem dctWF_bucketPair (dct : Dct) (s e : Int) (h : dctWF dct) :
    dctWF (bucketPair dct s e) := by
  unfold bucketPair
  split_ifs with hd
  · exact dctWF_dappend _ _ _ h rfl
  · exact dctWF_dappend _ _ _
      (dctWF_fold_dset _ _ _ (dctWF_dappend _ _ _ h rfl)) rfl

theorem dctWF_foldl_bucketEntry (now : Int) (l : List Entry) (d : Dct)
    (h : dctWF d) : dctWF (l.foldl (bucketEntry now) d) := by
  induction l generalizing d with
  | nil => exact h
  | cons en rest ih =>
      rw [List.foldl_cons]
      refine ih _ ?_
      rcases en with _ | ⟨a, _ | ⟨b, _ | ⟨c2, tl⟩⟩⟩
      · exact h
      · exact dctWF_bucketPair _ _ _ h
      · exact dctWF_bucketPair _ _ _ h
      · exact h

theorem dfind_mem (d : Dct) (k : Int) (vs : List Interval)
    (h : dfind k d = some vs) : (k, vs) ∈ d := by
  induction d with
  | nil => simp [dfind] at h
  | cons p rest ih =>
      obtain ⟨k2, vs2⟩ := p
      rw [dfind] at h
      split_ifs at h with he
      · subst he
        cases h
        exact List.mem_cons_self _ _
      · exact List.mem_cons_of_mem _ (ih h)

/-- C10: for any session sequence of Open and Closed sessions, every
interval value in the date dict built by `get_date_dict` is a list of
exactly two times, so the `len(val) == 1` branch of `calculate_total`
(which would substitute `now`) is unreachable.  (The well-formedness
hypothesis marks where the source itself would have crashed earlier on a
malformed entry.) -/
theorem bucketize_intervals_two_times (now : Int) (clock : Clock)
    (hwf : ∀ en ∈ clock, en.length = 1 ∨ en.length = 2)
    (k : Int) (vs : List Interval)
    (hk : dfind k (get_date_dict now clock) = some vs) :
    ∀ v ∈ vs, v.length = 2 := by
  have h := dctWF_foldl_bucketEntry now clock.reverse []
    (by intro p hp; simp at hp)
  exact h (k, vs) (dfind_mem _ _ _ hk)

/-- C10 witness: the 2024-01-02 bucket of the running example. -/
theorem bucketize_intervals_two_times_w :
    (∀ en ∈ ([[s0, e0]] : Clock), en.length = 1 ∨ en.length = 2) ∧
      ∀ v ∈ ([[0, 86399999999]] : List Interval), v.length = 2 :=
  ⟨by decide,
   bucketize_intervals_two_times e0 [[s0, e0]] (by decide) 19724
     [[0, 86399999999]] (by decide)⟩

end Punchclock
